import Mathlib

/-!
Verification of the N-ary tree container (`Tree<T>` / `TreeNode<T>` with its
four iterator kinds) described by the repository's specification and exercised
by its unit tests.  The tree is embedded as a rose tree; a node of a tree is
identified by its *path*, the list of child indices leading from the root to
the node.  Parent / sibling navigation and the four iterator advance rules are
expressed as functions on paths, following the specification's description of
the (missing) `Tree/Tree.hpp` header.
-/

set_option maxRecDepth 10000

universe u

/-- Modelled from the spec: `Node<T>` of the missing `Tree/Tree.hpp` header —
a vertex owning a payload (`data`) and the list of its children; the child
list order is insertion order and defines traversal order.  Parent and sibling
links of the C++ structure are recovered from positions (paths) in the tree. -/
inductive TreeNode (α : Type u) : Type u where
  | node : α → List (TreeNode α) → TreeNode α

variable {α : Type u}

/-- Modelled from the spec: `Node::GetData` returns the owned payload. -/
def TreeNode.GetData : TreeNode α → α
  | .node a _ => a

/-- The list of immediate children of a node, in insertion order. -/
def TreeNode.children : TreeNode α → List (TreeNode α)
  | .node _ cs => cs

mutual
/-- Number of nodes of the whole subtree, the root included. -/
def TreeNode.size : TreeNode α → Nat
  | .node _ cs => 1 + sizeList cs
/-- Sum of the sizes of a list of subtrees. -/
def sizeList : List (TreeNode α) → Nat
  | [] => 0
  | c :: cs => TreeNode.size c + sizeList cs
end

mutual
/-- Modelled from the spec: `Node::CountAllDescendants` — recursive count of
the subtree rooted here, excluding the node itself. -/
def TreeNode.CountAllDescendants : TreeNode α → Nat
  | .node _ cs => countDescList cs
/-- Count of all nodes of a list of subtrees (each subtree root included). -/
def countDescList : List (TreeNode α) → Nat
  | [] => 0
  | c :: cs => 1 + TreeNode.CountAllDescendants c + countDescList cs
end

/-- The subtree found by following a path of child indices from `t`. -/
def subtreeAt : TreeNode α → List Nat → Option (TreeNode α)
  | t, [] => some t
  | t, i :: p =>
    match t.children[i]? with
    | some c => subtreeAt c p
    | none => none

/-- A path is valid when it leads to a node of the tree. -/
def validPath (t : TreeNode α) (p : List Nat) : Prop :=
  (subtreeAt t p).isSome = true

instance (t : TreeNode α) (p : List Nat) : Decidable (validPath t p) := by
  unfold validPath; infer_instance

/-- Modelled from the spec: `Node::GetChildCount` at a position — number of
immediate children of the node at path `p` (zero off the tree). -/
def childCountAt (t : TreeNode α) (p : List Nat) : Nat :=
  match subtreeAt t p with
  | some s => s.children.length
  | none => 0

/-- The payload stored at path `p`, when the path is valid. -/
def dataAt (t : TreeNode α) (p : List Nat) : Option α :=
  (subtreeAt t p).map TreeNode.GetData

/-- Modelled from the spec: `Node::GetParent` — the parent position, or the
none sentinel at the root. -/
def parentPos (p : List Nat) : Option (List Nat) :=
  match p with
  | [] => none
  | _ :: _ => some p.dropLast

/-- Modelled from the spec: `Node::GetFirstChild` — the first-child position,
or the none sentinel when the node has no children. -/
def firstChildPos (t : TreeNode α) (p : List Nat) : Option (List Nat) :=
  if childCountAt t p = 0 then none else some (p ++ [0])

/-- Modelled from the spec: `Node::GetLastChild` — the last-child position,
or the none sentinel when the node has no children. -/
def lastChildPos (t : TreeNode α) (p : List Nat) : Option (List Nat) :=
  if childCountAt t p = 0 then none else some (p ++ [childCountAt t p - 1])

/-- Modelled from the spec: `Node::GetNextSibling` — the next-sibling
position, or the none sentinel at the last sibling (and at the root). -/
def nextSiblingPos (t : TreeNode α) (p : List Nat) : Option (List Nat) :=
  match p.getLast? with
  | none => none
  | some i =>
    if i + 1 < childCountAt t p.dropLast then some (p.dropLast ++ [i + 1]) else none

/-- Modelled from the spec: `Node::GetPreviousSibling` — the previous-sibling
position, or the none sentinel at the first sibling (and at the root). -/
def prevSiblingPos (t : TreeNode α) (p : List Nat) : Option (List Nat) :=
  match p.getLast? with
  | none => none
  | some i =>
    match i with
    | 0 => none
    | j + 1 => some (p.dropLast ++ [j])

/-- Fuelled form of the ancestor-ascent of the pre-order advance rule; the
fuel dominates the length of the path, which shrinks at every climb. -/
def ascendNextAux (t : TreeNode α) (bound : List Nat) : Nat → List Nat → Option (List Nat)
  | 0, p =>
    if p = bound then none
    else
      match nextSiblingPos t p with
      | some q => some q
      | none => none
  | fuel + 1, p =>
    if p = bound then none
    else
      match nextSiblingPos t p with
      | some q => some q
      | none => ascendNextAux t bound fuel p.dropLast

/-- Modelled from the spec: the ancestor-ascent of the pre-order advance rule —
climb from `p` towards the bound looking for a next sibling; reaching the
bound (or the root) without finding one yields the end sentinel. -/
def ascendNext (t : TreeNode α) (bound : List Nat) (p : List Nat) : Option (List Nat) :=
  ascendNextAux t bound p.length p

/-- Modelled from the spec: `PreOrderIterator` advance — descend to the first
child when one exists, otherwise ascend (bounded by the construction node)
looking for a next sibling. -/
def preOrderNext (t : TreeNode α) (bound : List Nat) (p : List Nat) : Option (List Nat) :=
  match firstChildPos t p with
  | some q => some q
  | none => ascendNext t bound p

/-- Leftmost leaf of a subtree: repeated first-child descent, as a path
extension of the prefix `p`. -/
def lmlAux : TreeNode α → List Nat → List Nat
  | .node _ [], p => p
  | .node _ (c :: _), p => lmlAux c (p ++ [0])

/-- Modelled from the spec: the "leftmost-leaf via repeated first-child
descent" used by the post-order iterator to seed itself and to enter a
sibling's subtree. -/
def leftmostLeafPos (t : TreeNode α) (p : List Nat) : List Nat :=
  match subtreeAt t p with
  | some s => lmlAux s p
  | none => p

/-- Modelled from the spec: `PostOrderIterator` advance — at the bound the
iterator ends; otherwise a next sibling's leftmost leaf, or the parent. -/
def postOrderNext (t : TreeNode α) (bound : List Nat) (p : List Nat) : Option (List Nat) :=
  if p = bound then none
  else
    match nextSiblingPos t p with
    | some q => some (leftmostLeafPos t q)
    | none => if p = [] then none else some p.dropLast

/-- Run the pre-order advance rule repeatedly (a fuelled loop) until a
childless node or the end sentinel is reached. -/
def leafNextAux (t : TreeNode α) (bound : List Nat) : Nat → List Nat → Option (List Nat)
  | 0, _ => none
  | fuel + 1, p =>
    match preOrderNext t bound p with
    | none => none
    | some q => if childCountAt t q = 0 then some q else leafNextAux t bound fuel q

/-- Modelled from the spec: `LeafIterator` advance — the pre-order advance
rule applied repeatedly until landing on a childless node or the end. -/
def leafNext (t : TreeNode α) (bound : List Nat) (p : List Nat) : Option (List Nat) :=
  leafNextAux t bound t.size p

/-- Modelled from the spec: initial position of a `LeafIterator` constructed
at `b` — `b` itself when childless, otherwise the first leaf of its subtree
in pre-order. -/
def leafStart (t : TreeNode α) (b : List Nat) : Option (List Nat) :=
  if childCountAt t b = 0 then some b else leafNext t b b

/-- The fuelled advance trajectory of an iterator: the list of positions
visited, starting from an optional initial position, applying the advance
function until the end sentinel (or fuel exhaustion). -/
def trajAux (f : List Nat → Option (List Nat)) : Nat → Option (List Nat) → List (List Nat)
  | 0, _ => []
  | _, none => []
  | fuel + 1, some p => p :: trajAux f fuel (f p)

/-- Full advance sequence of a `PreOrderIterator` constructed at `b`. -/
def preOrderTraj (t : TreeNode α) (b : List Nat) (fuel : Nat) : List (List Nat) :=
  trajAux (preOrderNext t b) fuel (some b)

/-- Full advance sequence of a `PostOrderIterator` constructed at `b` (which
seeds itself at the leftmost leaf of `b`). -/
def postOrderTraj (t : TreeNode α) (b : List Nat) (fuel : Nat) : List (List Nat) :=
  trajAux (postOrderNext t b) fuel (some (leftmostLeafPos t b))

/-- Full advance sequence of a `LeafIterator` constructed at `b`. -/
def leafTraj (t : TreeNode α) (b : List Nat) (fuel : Nat) : List (List Nat) :=
  trajAux (leafNext t b) fuel (leafStart t b)

/-- Full advance sequence of a `SiblingIterator` constructed at `b`: advance
is strictly `GetNextSibling`. -/
def siblingTraj (t : TreeNode α) (b : List Nat) (fuel : Nat) : List (List Nat) :=
  trajAux (nextSiblingPos t) fuel (some b)

/-- The payload sequence read off a list of positions. -/
def pathData (t : TreeNode α) (ps : List (List Nat)) : List α :=
  ps.filterMap (dataAt t)

mutual
/-- Structural pre-order enumeration of the positions of a subtree `s` sitting
at absolute path `p`: the node first, then its children's subtrees. -/
def preEnumAux : TreeNode α → List Nat → List (List Nat)
  | .node _ cs, p => p :: preEnumChildren cs p 0
/-- Pre-order enumeration of a tail of a child list whose first element has
child index `i` under the parent path `p`. -/
def preEnumChildren : List (TreeNode α) → List Nat → Nat → List (List Nat)
  | [], _, _ => []
  | c :: cs, p, i => preEnumAux c (p ++ [i]) ++ preEnumChildren cs p (i + 1)
end

mutual
/-- Structural post-order enumeration of the positions of a subtree `s` at
absolute path `p`: the children's subtrees first, then the node. -/
def postEnumAux : TreeNode α → List Nat → List (List Nat)
  | .node _ cs, p => postEnumChildren cs p 0 ++ [p]
/-- Post-order enumeration of a tail of a child list whose first element has
child index `i` under the parent path `p`. -/
def postEnumChildren : List (TreeNode α) → List Nat → Nat → List (List Nat)
  | [], _, _ => []
  | c :: cs, p, i => postEnumAux c (p ++ [i]) ++ postEnumChildren cs p (i + 1)
end

/-- Pre-order enumeration of all positions of a tree. -/
def preorderPaths (t : TreeNode α) : List (List Nat) :=
  preEnumAux t []

/-- Post-order enumeration of all positions of a tree. -/
def postorderPaths (t : TreeNode α) : List (List Nat) :=
  postEnumAux t []

/-- Modelled from the spec: `Tree::Size` — computed by a full traversal (not
cached), counting every node of the tree, root included. -/
def Tree.Size (t : TreeNode α) : Nat :=
  (postorderPaths t).length

/-- Positions remaining (current one included) for a pre-order iterator bound
at `b` once it stands at `p`, above `p`'s own subtree: for each ancestor level
up to the bound, the pre-order enumerations of the later siblings. -/
def upNexts (t : TreeNode α) (b : List Nat) (p : List Nat) : List (List Nat) :=
  if p = b then []
  else
    match h : p.getLast? with
    | none => []
    | some i =>
      (match subtreeAt t p.dropLast with
       | some s => preEnumChildren (s.children.drop (i + 1)) p.dropLast (i + 1)
       | none => []) ++ upNexts t b p.dropLast
termination_by p.length
decreasing_by
  simp [List.length_dropLast]
  exact List.length_pos.mpr (by rintro rfl; simp at h)

/-- All positions a pre-order iterator bound at `b` and standing at `p` still
yields, `p` included. -/
def afterPre (t : TreeNode α) (b : List Nat) (p : List Nat) : List (List Nat) :=
  (match subtreeAt t p with
   | some s => preEnumAux s p
   | none => []) ++ upNexts t b p

/-- Positions remaining strictly after `p` for a post-order iterator bound at
`b`: later siblings' post-order enumerations, then the parent, at every
ancestor level up to the bound. -/
def upNextsPost (t : TreeNode α) (b : List Nat) (p : List Nat) : List (List Nat) :=
  if p = b then []
  else
    match h : p.getLast? with
    | none => []
    | some i =>
      (match subtreeAt t p.dropLast with
       | some s => postEnumChildren (s.children.drop (i + 1)) p.dropLast (i + 1)
       | none => []) ++ (p.dropLast :: upNextsPost t b p.dropLast)
termination_by p.length
decreasing_by
  simp [List.length_dropLast]
  exact List.length_pos.mpr (by rintro rfl; simp at h)

/-- All positions a post-order iterator bound at `b` and standing at `p` still
yields, `p` included. -/
def afterPost (t : TreeNode α) (b : List Nat) (p : List Nat) : List (List Nat) :=
  p :: upNextsPost t b p

mutual
/-- Apply a node-rewriting function `f` to the node found at a path, leaving
the rest of the tree untouched (and the whole tree untouched when the path is
invalid). -/
def updateAt : (TreeNode α → TreeNode α) → TreeNode α → List Nat → TreeNode α
  | f, t, [] => f t
  | f, .node a cs, i :: p => .node a (updateInChildren f cs i p)
/-- Apply `updateAt` to the `i`-th element of a child list. -/
def updateInChildren :
    (TreeNode α → TreeNode α) → List (TreeNode α) → Nat → List Nat → List (TreeNode α)
  | _, [], _, _ => []
  | f, c :: cs, 0, p => updateAt f c p :: cs
  | f, c :: cs, j + 1, p => c :: updateInChildren f cs j p
end

/-- Modelled from the spec: `Node::AppendChild` — construct a new node owning
`v` and link it as the new last child of the node at path `p` (the previous
last child becomes its previous sibling); an invalid path changes nothing. -/
def appendChildAt (t : TreeNode α) (p : List Nat) (v : α) : TreeNode α :=
  updateAt (fun s => .node s.GetData (s.children ++ [.node v []])) t p

/-- Modelled from the spec: `Node::PrependChild` — symmetric to
`AppendChild`, inserting the new node at `firstChild`. -/
def prependChildAt (t : TreeNode α) (p : List Nat) (v : α) : TreeNode α :=
  updateAt (fun s => .node s.GetData (.node v [] :: s.children)) t p

mutual
/-- Modelled from the spec: `Node::DeleteFromTree` — unlink the node at the
(nonempty) path from its parent's child list and destroy its entire subtree;
the empty path (the root, whose deletion is disallowed) changes nothing. -/
def deleteAt : TreeNode α → List Nat → TreeNode α
  | t, [] => t
  | .node a cs, i :: p => .node a (deleteInChildren cs i p)
/-- Delete inside the `i`-th element of a child list (or erase it when the
remaining path is empty). -/
def deleteInChildren : List (TreeNode α) → Nat → List Nat → List (TreeNode α)
  | [], _, _ => []
  | _ :: cs, 0, [] => cs
  | c :: cs, 0, q :: qs => deleteAt c (q :: qs) :: cs
  | c :: cs, j + 1, p => c :: deleteInChildren cs j p
end

/-- Modelled from the spec: the number of payload destructors
`Node::DeleteFromTree` invokes — one per node of the deleted subtree, each
exactly once. -/
def destroyedCount (t : TreeNode α) (p : List Nat) : Nat :=
  match subtreeAt t p with
  | some s => s.size
  | none => 0

/-- Modelled from the spec: `Node::SortChildren` — stably reorder the
immediate children of the node at path `p` by the caller's comparator (a
"less-equal" test on nodes), not recursing into grandchildren; the stable
sort is modelled by insertion sort. -/
def sortChildrenAt (t : TreeNode α) (p : List Nat) (cmp : TreeNode α → TreeNode α → Bool) :
    TreeNode α :=
  updateAt (fun s => .node s.GetData (s.children.insertionSort fun x y => cmp x y = true)) t p

/-- The immediate-children list of the node at path `p` (empty off the
tree). -/
def childrenAt (t : TreeNode α) (p : List Nat) : List (TreeNode α) :=
  match subtreeAt t p with
  | some s => s.children
  | none => []

/-- `q` lies inside the subtree rooted at `b`: the path `q` extends `b`. -/
def inSubtreeOf (b q : List Nat) : Prop :=
  q.take b.length = b

instance (b q : List Nat) : Decidable (inSubtreeOf b q) := by
  unfold inSubtreeOf; infer_instance

/-- `q` lies on the same sibling chain as `b`: both are children of the same
parent position. -/
def inSiblingChainOf (b q : List Nat) : Prop :=
  q ≠ [] ∧ q.dropLast = b.dropLast

instance (b q : List Nat) : Decidable (inSiblingChainOf b q) := by
  unfold inSiblingChainOf; infer_instance

mutual
/-- Modelled from the spec: the deep copy performed by the `Tree` copy
constructor / copy assignment — every node is rebuilt recursively, child by
child, sharing no ownership with the original. -/
def copyTree : TreeNode α → TreeNode α
  | .node a cs => .node a (copyChildren cs)
/-- Deep-copy every element of a child list. -/
def copyChildren : List (TreeNode α) → List (TreeNode α)
  | [] => []
  | c :: cs => copyTree c :: copyChildren cs
end

/-- Modelled from the spec: the sequence of nodes whose payload destructor
runs during whole-tree destruction — destruction cascades through the
ownership tree, children before their owner. -/
def destroySeq (t : TreeNode α) : List (List Nat) :=
  postorderPaths t

/-- Modelled from the spec: a default-constructed `TreeNode<std::string>` —
a fully detached node holding a value-initialized payload and no children. -/
def defaultNode : TreeNode String :=
  .node "" []

/-- The nine-node example tree of the unit tests: root F; children B, G of F;
children A, D of B; children C, E of D; child I of G; child H of I. -/
def exampleTree : TreeNode String :=
  [([], "B"), ([], "G"), ([0], "A"), ([0], "D"), ([0, 1], "C"), ([0, 1], "E"),
    ([1], "I"), ([1, 0], "H")].foldl
    (fun t pv => appendChildAt t pv.1 pv.2) (.node "F" [])

/-- The sorting example of the unit tests: a root holding "IDK" with the
eight children B, D, A, C, F, G, E, H appended in that order. -/
def sortExampleTree : TreeNode String :=
  [([], "B"), ([], "D"), ([], "A"), ([], "C"), ([], "F"), ([], "G"), ([], "E"),
    ([], "H")].foldl
    (fun t pv => appendChildAt t pv.1 pv.2) (.node "IDK" [])

/-- Lexicographic less-or-equal on character lists, by code point. -/
def charListLe : List Char → List Char → Bool
  | [], _ => true
  | _ :: _, [] => false
  | c :: cs, d :: ds =>
    if c.toNat < d.toNat then true
    else if d.toNat < c.toNat then false
    else charListLe cs ds

/-- Modelled from the spec: the unit tests' comparator on nodes — compare the
string payloads in natural (lexicographic) order. -/
def nodeLe (x y : TreeNode String) : Bool :=
  charListLe x.GetData.data y.GetData.data

/-! ### Basic facts about paths and subtree lookup -/

theorem subtreeAt_nil (t : TreeNode α) : subtreeAt t [] = some t := rfl

theorem subtreeAt_append (p q : List Nat) :
    ∀ t : TreeNode α, subtreeAt t (p ++ q) = (subtreeAt t p).bind fun s => subtreeAt s q := by
  induction p with
  | nil => intro t; simp [subtreeAt]
  | cons i p ih =>
    intro t
    simp only [List.cons_append, subtreeAt]
    cases h : t.children[i]? with
    | none => simp [h]
    | some c => simp [h, ih]

theorem subtreeAt_concat (t : TreeNode α) (p : List Nat) (i : Nat) :
    subtreeAt t (p ++ [i]) = (subtreeAt t p).bind fun s => s.children[i]? := by
  rw [subtreeAt_append]
  cases subtreeAt t p with
  | none => rfl
  | some s =>
    cases h : s.children[i]? <;> simp [subtreeAt, h]

theorem validPath_nil (t : TreeNode α) : validPath t [] := by
  simp [validPath, subtreeAt]

theorem validPath_of_append (t : TreeNode α) {p q : List Nat}
    (h : validPath t (p ++ q)) : validPath t p := by
  unfold validPath at h ⊢
  rw [subtreeAt_append] at h
  cases hp : subtreeAt t p with
  | none => rw [hp] at h; simp at h
  | some s => rfl

theorem validPath_dropLast (t : TreeNode α) {p : List Nat}
    (h : validPath t p) : validPath t p.dropLast := by
  by_cases hp : p = []
  · subst hp; exact validPath_nil t
  · have hsplit : p.dropLast ++ [p.getLast hp] = p := List.dropLast_append_getLast hp
    rw [← hsplit] at h
    exact validPath_of_append t h

theorem validPath_concat {t : TreeNode α} {p : List Nat} {s : TreeNode α} {i : Nat}
    (hs : subtreeAt t p = some s) (hi : i < s.children.length) :
    validPath t (p ++ [i]) := by
  unfold validPath
  rw [subtreeAt_concat, hs]
  simp [List.getElem?_eq_getElem hi]

/-! ### Facts about subtree containment of paths -/

theorem inSubtreeOf_refl (b : List Nat) : inSubtreeOf b b := by
  simp [inSubtreeOf]

theorem inSubtreeOf.length_le {b q : List Nat} (h : inSubtreeOf b q) :
    b.length ≤ q.length := by
  unfold inSubtreeOf at h
  have := congrArg List.length h
  simp [List.length_take] at this
  omega

theorem inSubtreeOf_append {b q : List Nat} (h : inSubtreeOf b q) (r : List Nat) :
    inSubtreeOf b (q ++ r) := by
  have hle := h.length_le
  unfold inSubtreeOf at h ⊢
  rw [List.take_append_eq_append_take]
  have : b.length - q.length = 0 := by omega
  rw [this]
  simp [h]

theorem inSubtreeOf.eq_of_length_le {b q : List Nat} (h : inSubtreeOf b q)
    (hl : q.length ≤ b.length) : q = b := by
  unfold inSubtreeOf at h
  rw [List.take_of_length_le hl] at h
  exact h

theorem inSubtreeOf.length_lt {b q : List Nat} (h : inSubtreeOf b q) (hne : q ≠ b) :
    b.length < q.length := by
  rcases Nat.lt_or_ge b.length q.length with hlt | hge
  · exact hlt
  · exact absurd (h.eq_of_length_le hge) hne

theorem inSubtreeOf.dropLast {b q : List Nat} (h : inSubtreeOf b q) (hne : q ≠ b) :
    inSubtreeOf b q.dropLast := by
  have hlt := h.length_lt hne
  unfold inSubtreeOf at h ⊢
  rw [List.dropLast_eq_take, List.take_take]
  have : min b.length (q.length - 1) = b.length := by omega
  rw [this, h]

theorem inSubtreeOf_ne_nil {b q : List Nat} (h : inSubtreeOf b q) (hne : q ≠ b) :
    q ≠ [] := by
  intro hq
  subst hq
  have := h.length_lt hne
  simp at this

/-! ### Shape facts about the navigation primitives -/

theorem nextSiblingPos_nil (t : TreeNode α) : nextSiblingPos t [] = none := rfl

theorem nextSiblingPos_eq_some {t : TreeNode α} {p q : List Nat}
    (h : nextSiblingPos t p = some q) :
    ∃ i, p.getLast? = some i ∧ q = p.dropLast ++ [i + 1] ∧
      i + 1 < childCountAt t p.dropLast := by
  unfold nextSiblingPos at h
  split at h
  · exact absurd h (by simp)
  · rename_i i hl
    split at h
    · rename_i hc
      exact ⟨i, hl, (Option.some_inj.mp h).symm, hc⟩
    · exact absurd h (by simp)

theorem ne_nil_of_getLast?_eq_some {p : List Nat} {i : Nat}
    (h : p.getLast? = some i) : p ≠ [] := by
  intro hp; subst hp; simp at h

theorem firstChildPos_eq_some {t : TreeNode α} {p q : List Nat}
    (h : firstChildPos t p = some q) :
    q = p ++ [0] ∧ childCountAt t p ≠ 0 := by
  unfold firstChildPos at h
  by_cases hc : childCountAt t p = 0
  · rw [if_pos hc] at h; simp at h
  · rw [if_neg hc] at h; exact ⟨(Option.some_inj.mp h).symm, hc⟩

/-! ### The fuelled ascent computes independently of sufficient fuel -/

theorem ascendNextAux_nil (t : TreeNode α) (b : List Nat) :
    ∀ fuel, ascendNextAux t b fuel [] = none := by
  intro fuel
  induction fuel with
  | zero => simp [ascendNextAux, nextSiblingPos_nil]
  | succ n ih => simp [ascendNextAux, nextSiblingPos_nil, ih]

theorem ascendNextAux_congr (t : TreeNode α) (b : List Nat) :
    ∀ fuel fuel' p, p.length ≤ fuel → p.length ≤ fuel' →
      ascendNextAux t b fuel p = ascendNextAux t b fuel' p := by
  intro fuel
  induction fuel with
  | zero =>
    intro fuel' p hp _
    have : p = [] := List.length_eq_zero.mp (Nat.le_zero.mp hp)
    subst this
    rw [ascendNextAux_nil, ascendNextAux_nil]
  | succ n ih =>
    intro fuel' p hp hp'
    cases fuel' with
    | zero =>
      have : p = [] := List.length_eq_zero.mp (Nat.le_zero.mp hp')
      subst this
      rw [ascendNextAux_nil, ascendNextAux_nil]
    | succ m =>
      show ascendNextAux t b (n + 1) p = ascendNextAux t b (m + 1) p
      simp only [ascendNextAux]
      by_cases hb : p = b
      · simp [hb]
      · rw [if_neg hb, if_neg hb]
        cases hs : nextSiblingPos t p with
        | some q => rfl
        | none =>
          exact ih m p.dropLast (by simp [List.length_dropLast]; omega)
            (by simp [List.length_dropLast]; omega)

theorem ascendNext_unfold (t : TreeNode α) (b : List Nat) (p : List Nat) :
    ascendNext t b p =
      if p = b then none
      else
        match nextSiblingPos t p with
        | some q => some q
        | none => if p = [] then none else ascendNext t b p.dropLast := by
  cases p with
  | nil =>
    unfold ascendNext
    rw [ascendNextAux_nil]
    by_cases hb : ([] : List Nat) = b
    · simp [hb]
    · simp [hb, nextSiblingPos_nil]
  | cons x xs =>
    unfold ascendNext
    show ascendNextAux t b (xs.length + 1) (x :: xs) = _
    simp only [ascendNextAux]
    by_cases hb : x :: xs = b
    · simp [hb]
    · rw [if_neg hb, if_neg hb]
      cases hs : nextSiblingPos t (x :: xs) with
      | some q => rfl
      | none =>
        simp only []
        rw [if_neg (by simp : x :: xs ≠ [])]
        exact ascendNextAux_congr t b xs.length (x :: xs).dropLast.length
          (x :: xs).dropLast (by simp [List.length_dropLast]) (le_refl _)

/-! ### The bound confines every advance rule (claim C1 machinery) -/

theorem ascendNextAux_inSubtree {t : TreeNode α} {b : List Nat} :
    ∀ fuel p q, inSubtreeOf b p → ascendNextAux t b fuel p = some q →
      inSubtreeOf b q := by
  intro fuel
  induction fuel with
  | zero =>
    intro p q hp h
    simp only [ascendNextAux] at h
    by_cases hb : p = b
    · simp [hb] at h
    · rw [if_neg hb] at h
      cases hs : nextSiblingPos t p with
      | none => rw [hs] at h; simp at h
      | some q0 =>
        rw [hs] at h
        obtain ⟨i, _, hq0, _⟩ := nextSiblingPos_eq_some hs
        cases h
        subst hq0
        exact inSubtreeOf_append (hp.dropLast hb) _
  | succ n ih =>
    intro p q hp h
    simp only [ascendNextAux] at h
    by_cases hb : p = b
    · simp [hb] at h
    · rw [if_neg hb] at h
      cases hs : nextSiblingPos t p with
      | some q0 =>
        rw [hs] at h
        obtain ⟨i, _, hq0, _⟩ := nextSiblingPos_eq_some hs
        cases h
        subst hq0
        exact inSubtreeOf_append (hp.dropLast hb) _
      | none =>
        rw [hs] at h
        exact ih p.dropLast q (hp.dropLast hb) h

theorem ascendNext_inSubtree {t : TreeNode α} {b p q : List Nat}
    (hp : inSubtreeOf b p) (h : ascendNext t b p = some q) : inSubtreeOf b q :=
  ascendNextAux_inSubtree p.length p q hp h

theorem preOrderNext_inSubtree {t : TreeNode α} {b p q : List Nat}
    (hp : inSubtreeOf b p) (h : preOrderNext t b p = some q) : inSubtreeOf b q := by
  unfold preOrderNext at h
  cases hf : firstChildPos t p with
  | some q0 =>
    rw [hf] at h
    cases h
    obtain ⟨hq0, _⟩ := firstChildPos_eq_some hf
    subst hq0
    exact inSubtreeOf_append hp _
  | none =>
    rw [hf] at h
    exact ascendNext_inSubtree hp h

theorem lmlAux_inSubtree (s : TreeNode α) (p : List Nat) :
    ∀ b, inSubtreeOf b p → inSubtreeOf b (lmlAux s p) := by
  induction s, p using lmlAux.induct with
  | case1 a p => intro b hb; simpa [lmlAux] using hb
  | case2 a c tail p ih =>
    intro b hb
    simp only [lmlAux]
    exact ih b (inSubtreeOf_append hb _)

theorem leftmostLeafPos_inSubtree {t : TreeNode α} {b p : List Nat}
    (hp : inSubtreeOf b p) : inSubtreeOf b (leftmostLeafPos t p) := by
  unfold leftmostLeafPos
  cases subtreeAt t p with
  | none => exact hp
  | some s => exact lmlAux_inSubtree s p b hp

theorem postOrderNext_inSubtree {t : TreeNode α} {b p q : List Nat}
    (hp : inSubtreeOf b p) (h : postOrderNext t b p = some q) : inSubtreeOf b q := by
  unfold postOrderNext at h
  by_cases hb : p = b
  · simp [hb] at h
  · rw [if_neg hb] at h
    cases hs : nextSiblingPos t p with
    | some q0 =>
      rw [hs] at h
      cases h
      obtain ⟨i, _, hq0, _⟩ := nextSiblingPos_eq_some hs
      subst hq0
      exact leftmostLeafPos_inSubtree (inSubtreeOf_append (hp.dropLast hb) _)
    | none =>
      rw [hs] at h
      by_cases hnil : p = []
      · simp [hnil] at h
      · rw [if_neg hnil] at h
        cases h
        exact hp.dropLast hb

theorem leafNextAux_inSubtree {t : TreeNode α} {b : List Nat} :
    ∀ fuel p q, inSubtreeOf b p → leafNextAux t b fuel p = some q →
      inSubtreeOf b q := by
  intro fuel
  induction fuel with
  | zero => intro p q _ h; simp [leafNextAux] at h
  | succ n ih =>
    intro p q hp h
    simp only [leafNextAux] at h
    split at h
    · exact absurd h (by simp)
    · rename_i q0 hf
      have hq0 := preOrderNext_inSubtree hp hf
      split at h
      · cases h; exact hq0
      · exact ih q0 q hq0 h

theorem leafNext_inSubtree {t : TreeNode α} {b p q : List Nat}
    (hp : inSubtreeOf b p) (h : leafNext t b p = some q) : inSubtreeOf b q :=
  leafNextAux_inSubtree t.size p q hp h

theorem nextSiblingPos_inSiblingChain {t : TreeNode α} {b p q : List Nat}
    (hp : inSiblingChainOf b p) (h : nextSiblingPos t p = some q) :
    inSiblingChainOf b q := by
  obtain ⟨i, _, hq, _⟩ := nextSiblingPos_eq_some h
  subst hq
  exact ⟨by simp, by rw [List.dropLast_concat]; exact hp.2⟩

theorem trajAux_inv {f : List Nat → Option (List Nat)} {Inv : List Nat → Prop}
    (hf : ∀ p q, Inv p → f p = some q → Inv q) :
    ∀ fuel st, (∀ p, st = some p → Inv p) → ∀ q, q ∈ trajAux f fuel st → Inv q := by
  intro fuel
  induction fuel with
  | zero => intro st h q hq; simp [trajAux] at hq
  | succ n ih =>
    intro st h q hq
    cases st with
    | none => simp [trajAux] at hq
    | some p =>
      simp only [trajAux, List.mem_cons] at hq
      rcases hq with rfl | hq
      · exact h q rfl
      · exact ih (f p) (fun r hr => hf p r (h p rfl) hr) q hq

/-- C1: for every tree and every non-root node `b` in it, an iterator of any
of the four kinds constructed from `b` yields, over its entire advance
sequence until it becomes the end sentinel, only nodes inside `b`'s subtree
(PreOrder, PostOrder, Leaf) or inside `b`'s sibling list (Sibling);
ancestor-ascent during advance stops at the bound node `b` and never passes
through it into `b`'s ancestors, uncles or cousins. -/
theorem C1_bounded_iteration (t : TreeNode α) (b : List Nat)
    (hb : validPath t b) (hroot : b ≠ []) (fuel : Nat) (q : List Nat) :
    (q ∈ preOrderTraj t b fuel → inSubtreeOf b q) ∧
    (q ∈ postOrderTraj t b fuel → inSubtreeOf b q) ∧
    (q ∈ leafTraj t b fuel → inSubtreeOf b q) ∧
    (q ∈ siblingTraj t b fuel → inSiblingChainOf b q) := by
  refine ⟨fun hq => ?_, fun hq => ?_, fun hq => ?_, fun hq => ?_⟩
  · exact trajAux_inv (fun p r hp h => preOrderNext_inSubtree hp h) fuel (some b)
      (fun p hp => by cases hp; exact inSubtreeOf_refl b) q hq
  · exact trajAux_inv (fun p r hp h => postOrderNext_inSubtree hp h) fuel
      (some (leftmostLeafPos t b))
      (fun p hp => by cases hp; exact leftmostLeafPos_inSubtree (inSubtreeOf_refl b)) q hq
  · refine trajAux_inv (fun p r hp h => leafNext_inSubtree hp h) fuel
      (leafStart t b) (fun p hp => ?_) q hq
    unfold leafStart at hp
    split at hp
    · cases hp; exact inSubtreeOf_refl b
    · exact leafNext_inSubtree (inSubtreeOf_refl b) hp
  · exact trajAux_inv (fun p r hp h => nextSiblingPos_inSiblingChain hp h) fuel (some b)
      (fun p hp => by cases hp; exact ⟨hroot, rfl⟩) q hq

/-- Concrete instantiation of `C1_bounded_iteration`: the bound `B` (path
`[0]`) of the nine-node example tree, with the node `D` (path `[0, 1]`). -/
theorem C1_bounded_iteration_witness :
    validPath exampleTree [0] ∧ ([0] : List Nat) ≠ [] ∧
      ((([0, 1] : List Nat) ∈ preOrderTraj exampleTree [0] 20 →
          inSubtreeOf [0] [0, 1]) ∧
        (([0, 1] : List Nat) ∈ postOrderTraj exampleTree [0] 20 →
          inSubtreeOf [0] [0, 1]) ∧
        (([0, 1] : List Nat) ∈ leafTraj exampleTree [0] 20 →
          inSubtreeOf [0] [0, 1]) ∧
        (([0, 1] : List Nat) ∈ siblingTraj exampleTree [0] 20 →
          inSiblingChainOf [0] [0, 1])) :=
  ⟨by decide, by decide,
    C1_bounded_iteration exampleTree [0] (by decide) (by decide) 20 [0, 1]⟩

/-- C2: for the fixed example tree (root F; children B, G of F; children A, D
of B; children C, E of D; child I of G; child H of I), the full pre-order
traversal yields exactly F, B, A, D, C, E, G, I, H; the full post-order
traversal (the tree's begin/end order) yields exactly A, C, E, D, B, H, I,
G, F; and the leaf traversal yields exactly A, C, E, H. -/
theorem C2_example_fixed_traversals :
    pathData exampleTree (preOrderTraj exampleTree [] 20) =
      ["F", "B", "A", "D", "C", "E", "G", "I", "H"] ∧
    pathData exampleTree (postOrderTraj exampleTree [] 20) =
      ["A", "C", "E", "D", "B", "H", "I", "G", "F"] ∧
    pathData exampleTree (leafTraj exampleTree [] 20) = ["A", "C", "E", "H"] :=
  ⟨by decide, by decide, by decide⟩

/-- C4: in the nine-node example tree, deleting the internal node D (path
`[0, 1]`: children C and E, parent B, left sibling A) destroys exactly 3
payloads, decrements B's child count by exactly 1, reduces the tree's size
by 3, and the surviving post-order traversal is A, B, H, I, G, F, containing
none of D, C, E. -/
theorem C4_delete_internal_node :
    dataAt exampleTree [0, 1] = some "D" ∧
    dataAt exampleTree [0, 1, 0] = some "C" ∧
    dataAt exampleTree [0, 1, 1] = some "E" ∧
    childCountAt exampleTree [0, 1] = 2 ∧
    dataAt exampleTree [0] = some "B" ∧
    prevSiblingPos exampleTree [0, 1] = some [0, 0] ∧
    dataAt exampleTree [0, 0] = some "A" ∧
    destroyedCount exampleTree [0, 1] = 3 ∧
    childCountAt (deleteAt exampleTree [0, 1]) [0] = childCountAt exampleTree [0] - 1 ∧
    Tree.Size (deleteAt exampleTree [0, 1]) = Tree.Size exampleTree - 3 ∧
    pathData (deleteAt exampleTree [0, 1])
        (postOrderTraj (deleteAt exampleTree [0, 1]) [] 20) =
      ["A", "B", "H", "I", "G", "F"] ∧
    "D" ∉ pathData (deleteAt exampleTree [0, 1])
        (postOrderTraj (deleteAt exampleTree [0, 1]) [] 20) ∧
    "C" ∉ pathData (deleteAt exampleTree [0, 1])
        (postOrderTraj (deleteAt exampleTree [0, 1]) [] 20) ∧
    "E" ∉ pathData (deleteAt exampleTree [0, 1])
        (postOrderTraj (deleteAt exampleTree [0, 1]) [] 20) := by
  decide

/-- C10: a default-constructed `TreeNode<std::string>` is fully detached and
childless: its child count is 0, parent, first/last child and both sibling
accessors return the none sentinel, and its payload is the empty string. -/
theorem C10_default_node :
    childCountAt defaultNode [] = 0 ∧
    parentPos ([] : List Nat) = none ∧
    firstChildPos defaultNode [] = none ∧
    lastChildPos defaultNode [] = none ∧
    nextSiblingPos defaultNode [] = none ∧
    prevSiblingPos defaultNode [] = none ∧
    dataAt defaultNode [] = some "" := by
  decide

/-! ### Counting the structural enumerations -/

mutual
theorem length_preEnumAux : ∀ (s : TreeNode α) (p : List Nat),
    (preEnumAux s p).length = s.size
  | .node a cs, p => by
    simp [preEnumAux, TreeNode.size, length_preEnumChildren cs p 0]
    omega
theorem length_preEnumChildren : ∀ (cs : List (TreeNode α)) (p : List Nat) (i : Nat),
    (preEnumChildren cs p i).length = sizeList cs
  | [], _, _ => by simp [preEnumChildren, sizeList]
  | c :: cs, p, i => by
    simp [preEnumChildren, sizeList, length_preEnumAux c (p ++ [i]),
      length_preEnumChildren cs p (i + 1)]
end

mutual
theorem length_postEnumAux : ∀ (s : TreeNode α) (p : List Nat),
    (postEnumAux s p).length = s.size
  | .node a cs, p => by
    simp [postEnumAux, TreeNode.size, length_postEnumChildren cs p 0]
    omega
theorem length_postEnumChildren : ∀ (cs : List (TreeNode α)) (p : List Nat) (i : Nat),
    (postEnumChildren cs p i).length = sizeList cs
  | [], _, _ => by simp [postEnumChildren, sizeList]
  | c :: cs, p, i => by
    simp [postEnumChildren, sizeList, length_postEnumAux c (p ++ [i]),
      length_postEnumChildren cs p (i + 1)]
end

mutual
theorem perm_postEnumAux : ∀ (s : TreeNode α) (p : List Nat),
    (postEnumAux s p).Perm (preEnumAux s p)
  | .node a cs, p => by
    simp only [postEnumAux, preEnumAux]
    exact List.Perm.trans List.perm_append_comm
      (List.Perm.cons p (perm_postEnumChildren cs p 0))
theorem perm_postEnumChildren : ∀ (cs : List (TreeNode α)) (p : List Nat) (i : Nat),
    (postEnumChildren cs p i).Perm (preEnumChildren cs p i)
  | [], _, _ => by simp [postEnumChildren, preEnumChildren]
  | c :: cs, p, i => by
    simp only [postEnumChildren, preEnumChildren]
    exact List.Perm.append (perm_postEnumAux c (p ++ [i]))
      (perm_postEnumChildren cs p (i + 1))
end

/-! ### Membership and distinctness of the structural enumerations -/

theorem validPath_cons {a : α} {cs : List (TreeNode α)} {j : Nat} {q : List Nat} :
    validPath (TreeNode.node a cs) (j :: q) ↔ ∃ c, cs[j]? = some c ∧ validPath c q := by
  unfold validPath
  cases h : cs[j]? with
  | none => simp [subtreeAt, TreeNode.children, h]
  | some c => simp [subtreeAt, TreeNode.children, h]

mutual
theorem mem_preEnumAux : ∀ (s : TreeNode α) (p r : List Nat),
    r ∈ preEnumAux s p ↔ ∃ q, r = p ++ q ∧ validPath s q
  | .node a cs, p, r => by
    simp only [preEnumAux, List.mem_cons]
    constructor
    · rintro (rfl | hr)
      · exact ⟨[], by simp, validPath_nil _⟩
      · obtain ⟨j, c, q, hc, rfl, hq⟩ := (mem_preEnumChildren cs p 0 r).mp hr
        refine ⟨j :: q, by simp, ?_⟩
        exact validPath_cons.mpr ⟨c, by simpa using hc, hq⟩
    · rintro ⟨q, rfl, hq⟩
      cases q with
      | nil => left; simp
      | cons j q =>
        right
        obtain ⟨c, hc, hq⟩ := validPath_cons.mp hq
        exact (mem_preEnumChildren cs p 0 _).mpr ⟨j, c, q, hc, by simp, hq⟩
theorem mem_preEnumChildren : ∀ (cs : List (TreeNode α)) (p : List Nat) (i : Nat)
    (r : List Nat),
    r ∈ preEnumChildren cs p i ↔
      ∃ j c q, cs[j]? = some c ∧ r = p ++ [i + j] ++ q ∧ validPath c q
  | [], p, i, r => by simp [preEnumChildren]
  | c :: cs, p, i, r => by
    simp only [preEnumChildren, List.mem_append]
    constructor
    · rintro (hr | hr)
      · obtain ⟨q, rfl, hq⟩ := (mem_preEnumAux c (p ++ [i]) r).mp hr
        exact ⟨0, c, q, by simp, by simp, hq⟩
      · obtain ⟨j, d, q, hd, hr', hq⟩ := (mem_preEnumChildren cs p (i + 1) r).mp hr
        refine ⟨j + 1, d, q, by simpa using hd, ?_, hq⟩
        rw [hr', show i + (j + 1) = i + 1 + j from by omega]
    · rintro ⟨j, d, q, hd, hr', hq⟩
      cases j with
      | zero =>
        left
        have hd' : c = d := by simpa using hd
        subst hd'
        exact (mem_preEnumAux c (p ++ [i]) r).mpr ⟨q, by simpa using hr', hq⟩
      | succ j =>
        right
        refine (mem_preEnumChildren cs p (i + 1) r).mpr ⟨j, d, q, by simpa using hd, ?_, hq⟩
        rw [hr', show i + (j + 1) = i + 1 + j from by omega]
end

theorem getElem?_append_cons (p : List Nat) (i : Nat) (q : List Nat) :
    (p ++ i :: q)[p.length]? = some i := by
  rw [List.getElem?_append_right (le_refl p.length)]
  simp

mutual
theorem nodup_preEnumAux : ∀ (s : TreeNode α) (p : List Nat), (preEnumAux s p).Nodup
  | .node a cs, p => by
    simp only [preEnumAux, List.nodup_cons]
    refine ⟨fun hp => ?_, nodup_preEnumChildren cs p 0⟩
    obtain ⟨j, c, q, hc, hr, hq⟩ := (mem_preEnumChildren cs p 0 p).mp hp
    have hlen := congrArg List.length hr
    simp at hlen
theorem nodup_preEnumChildren : ∀ (cs : List (TreeNode α)) (p : List Nat) (i : Nat),
    (preEnumChildren cs p i).Nodup
  | [], _, _ => by simp [preEnumChildren]
  | c :: cs, p, i => by
    simp only [preEnumChildren]
    refine List.Nodup.append (nodup_preEnumAux c (p ++ [i]))
      (nodup_preEnumChildren cs p (i + 1)) ?_
    intro r hr1 hr2
    obtain ⟨q, hq, _⟩ := (mem_preEnumAux c (p ++ [i]) r).mp hr1
    obtain ⟨j, d, q', hd, hr', _⟩ := (mem_preEnumChildren cs p (i + 1) r).mp hr2
    have h1 : r[p.length]? = some i := by
      rw [hq]
      simp only [List.append_assoc, List.singleton_append]
      exact getElem?_append_cons p i q
    have h2 : r[p.length]? = some (i + 1 + j) := by
      rw [hr']
      simp only [List.append_assoc, List.singleton_append]
      exact getElem?_append_cons p _ q'
    rw [h1] at h2
    simp at h2
    omega
end

theorem mem_preorderPaths {t : TreeNode α} {r : List Nat} :
    r ∈ preorderPaths t ↔ validPath t r := by
  unfold preorderPaths
  rw [mem_preEnumAux]
  constructor
  · rintro ⟨q, rfl, hq⟩; simpa using hq
  · intro h; exact ⟨r, by simp, h⟩

/-! ### Size bookkeeping -/

theorem Size_eq_size (t : TreeNode α) : Tree.Size t = t.size := by
  unfold Tree.Size postorderPaths
  exact length_postEnumAux t []

mutual
theorem size_eq_one_add_countDesc : ∀ s : TreeNode α,
    s.size = 1 + s.CountAllDescendants
  | .node a cs => by
    rw [show (TreeNode.node a cs).size = 1 + sizeList cs from rfl,
      show (TreeNode.node a cs).CountAllDescendants = countDescList cs from rfl,
      countDescList_eq_sizeList cs]
theorem countDescList_eq_sizeList : ∀ cs : List (TreeNode α),
    countDescList cs = sizeList cs
  | [] => rfl
  | c :: cs => by
    rw [show countDescList (c :: cs) = 1 + c.CountAllDescendants + countDescList cs from rfl,
      show sizeList (c :: cs) = c.size + sizeList cs from rfl,
      countDescList_eq_sizeList cs, size_eq_one_add_countDesc c]
end

theorem sizeList_append (xs ys : List (TreeNode α)) :
    sizeList (xs ++ ys) = sizeList xs + sizeList ys := by
  induction xs with
  | nil => simp [sizeList]
  | cons c xs ih => simp [sizeList, ih]; omega

theorem sizeList_eq_sum (cs : List (TreeNode α)) :
    sizeList cs = (cs.map TreeNode.size).sum := by
  induction cs with
  | nil => simp [sizeList]
  | cons c cs ih => simp [sizeList, ih]

/-! ### The point-update operation and its effect on lookup and size -/

theorem childCountAt_eq {t : TreeNode α} {p : List Nat} {s : TreeNode α}
    (hs : subtreeAt t p = some s) : childCountAt t p = s.children.length := by
  unfold childCountAt
  rw [hs]

theorem updateInChildren_getElem (f : TreeNode α → TreeNode α) :
    ∀ (cs : List (TreeNode α)) (i : Nat) (p : List Nat) (j : Nat),
      (updateInChildren f cs i p)[j]? =
        if j = i then (cs[i]?).map (fun c => updateAt f c p) else cs[j]? := by
  intro cs
  induction cs with
  | nil =>
    intro i p j
    simp only [updateInChildren]
    split <;> simp
  | cons c cs ih =>
    intro i p j
    cases i with
    | zero =>
      cases j with
      | zero => simp [updateInChildren]
      | succ j => simp [updateInChildren]
    | succ i =>
      cases j with
      | zero => simp [updateInChildren]
      | succ j => simpa [updateInChildren] using ih i p j

theorem subtreeAt_updateAt (f : TreeNode α → TreeNode α) :
    ∀ (p : List Nat) (t : TreeNode α),
      subtreeAt (updateAt f t p) p = (subtreeAt t p).map f := by
  intro p
  induction p with
  | nil => intro t; simp [updateAt, subtreeAt]
  | cons i p ih =>
    intro t
    obtain ⟨a, cs⟩ := t
    show subtreeAt (TreeNode.node a (updateInChildren f cs i p)) (i :: p) = _
    simp only [subtreeAt, TreeNode.children]
    rw [updateInChildren_getElem, if_pos rfl]
    cases hc : cs[i]? with
    | none => simp [hc]
    | some c => simp [hc, ih c]

theorem subtreeAt_updateAt_append (f : TreeNode α → TreeNode α) (t : TreeNode α)
    (p q : List Nat) :
    subtreeAt (updateAt f t p) (p ++ q) =
      (subtreeAt t p).bind fun s => subtreeAt (f s) q := by
  rw [subtreeAt_append, subtreeAt_updateAt]
  cases subtreeAt t p <;> simp

theorem size_updateAt (f : TreeNode α → TreeNode α) :
    ∀ (p : List Nat) (t : TreeNode α) (s : TreeNode α), subtreeAt t p = some s →
      (updateAt f t p).size + s.size = t.size + (f s).size := by
  intro p
  induction p with
  | nil =>
    intro t s hs
    obtain rfl : t = s := by simpa [subtreeAt] using hs
    obtain ⟨a, cs⟩ := t
    show (f (TreeNode.node a cs)).size + (TreeNode.node a cs).size =
      (TreeNode.node a cs).size + (f (TreeNode.node a cs)).size
    omega
  | cons i p ih =>
    intro t s hs
    obtain ⟨a, cs⟩ := t
    obtain ⟨c, hc, hcs⟩ : ∃ c, cs[i]? = some c ∧ subtreeAt c p = some s := by
      revert hs
      show subtreeAt (TreeNode.node a cs) (i :: p) = some s → _
      simp only [subtreeAt, TreeNode.children]
      cases hc : cs[i]? with
      | none => intro h; cases h
      | some c => intro h; exact ⟨c, rfl, h⟩
    show (TreeNode.node a (updateInChildren f cs i p)).size + s.size =
      (TreeNode.node a cs).size + (f s).size
    rw [show (TreeNode.node a (updateInChildren f cs i p)).size =
      1 + sizeList (updateInChildren f cs i p) from rfl,
      show (TreeNode.node a cs).size = 1 + sizeList cs from rfl]
    have inner : ∀ (ds : List (TreeNode α)) (i : Nat) (c : TreeNode α),
        ds[i]? = some c → subtreeAt c p = some s →
        sizeList (updateInChildren f ds i p) + s.size = sizeList ds + (f s).size := by
      intro ds
      induction ds with
      | nil => intro i c hcd _; simp at hcd
      | cons d ds ihd =>
        intro i c hcd hsub
        cases i with
        | zero =>
          obtain rfl : d = c := by simpa using hcd
          show TreeNode.size (updateAt f d p) + sizeList ds + s.size =
            (TreeNode.size d + sizeList ds) + (f s).size
          have := ih d s hsub
          omega
        | succ i =>
          show TreeNode.size d + sizeList (updateInChildren f ds i p) + s.size =
            (TreeNode.size d + sizeList ds) + (f s).size
          have := ihd i c (by simpa using hcd) hsub
          omega
    have := inner cs i c hc hcs
    omega

theorem size_appendChildAt {t : TreeNode α} {p : List Nat} (v : α)
    (hv : validPath t p) : (appendChildAt t p v).size = t.size + 1 := by
  obtain ⟨s, hs⟩ := Option.isSome_iff_exists.mp hv
  have h := size_updateAt (fun s => TreeNode.node s.GetData
    (s.children ++ [TreeNode.node v []])) p t s hs
  have hf : (TreeNode.node s.GetData (s.children ++ [TreeNode.node v []])).size =
      s.size + 1 := by
    obtain ⟨a, cs⟩ := s
    show 1 + sizeList (cs ++ [TreeNode.node v []]) = (1 + sizeList cs) + 1
    rw [sizeList_append]
    show 1 + (sizeList cs + (1 + sizeList [])) = 1 + sizeList cs + 1
    simp [sizeList]
    omega
  rw [hf] at h
  unfold appendChildAt
  omega

theorem size_prependChildAt {t : TreeNode α} {p : List Nat} (v : α)
    (hv : validPath t p) : (prependChildAt t p v).size = t.size + 1 := by
  obtain ⟨s, hs⟩ := Option.isSome_iff_exists.mp hv
  have h := size_updateAt (fun s => TreeNode.node s.GetData
    (TreeNode.node v [] :: s.children)) p t s hs
  have hf : (TreeNode.node s.GetData (TreeNode.node v [] :: s.children)).size =
      s.size + 1 := by
    obtain ⟨a, cs⟩ := s
    show 1 + sizeList (TreeNode.node v [] :: cs) = (1 + sizeList cs) + 1
    show 1 + (TreeNode.size (TreeNode.node v []) + sizeList cs) = 1 + sizeList cs + 1
    show 1 + ((1 + sizeList ([] : List (TreeNode α))) + sizeList cs) = 1 + sizeList cs + 1
    simp [sizeList]
    omega
  rw [hf] at h
  unfold prependChildAt
  omega

/-! ### Deep copy rebuilds an identical tree -/

mutual
theorem copyTree_eq : ∀ t : TreeNode α, copyTree t = t
  | .node a cs => by
    rw [show copyTree (TreeNode.node a cs) = TreeNode.node a (copyChildren cs) from rfl,
      copyChildren_eq cs]
theorem copyChildren_eq : ∀ cs : List (TreeNode α), copyChildren cs = cs
  | [] => rfl
  | c :: cs => by
    rw [show copyChildren (c :: cs) = copyTree c :: copyChildren cs from rfl,
      copyTree_eq c, copyChildren_eq cs]
end

theorem parentPos_concat (p : List Nat) (i : Nat) : parentPos (p ++ [i]) = some p := by
  cases p with
  | nil => simp [parentPos]
  | cons x xs =>
    show parentPos (x :: (xs ++ [i])) = some (x :: xs)
    simp only [parentPos]
    rw [show x :: (xs ++ [i]) = (x :: xs) ++ [i] from rfl, List.dropLast_concat]

/-- C5: for every tree, deep-copying it produces a tree of identical size
whose post-order traversal yields an element sequence identical to the
post-order traversal of the original; the copy is rebuilt node by node, so
in this value model it coincides with the original tree, and recomputing the
original's traversal is unaffected by anything done to the copy. -/
theorem C5_deep_copy (t : TreeNode α) :
    Tree.Size (copyTree t) = Tree.Size t ∧
    pathData (copyTree t) (postOrderTraj (copyTree t) [] (Tree.Size (copyTree t))) =
      pathData t (postOrderTraj t [] (Tree.Size t)) := by
  rw [copyTree_eq t]
  exact ⟨rfl, rfl⟩

/-- C6: appending a child creates exactly one new node holding `v`, linked as
the new lastChild (the previous lastChild becoming its previous sibling), with
parent `p`, incrementing the child count by exactly 1, leaving the previously
inserted children in place and in insertion order, the new node reachable at
the returned position; PrependChild is symmetric at firstChild. -/
theorem C6_append_prepend_child (t : TreeNode α) (p : List Nat) (v : α)
    (hv : validPath t p) :
    childCountAt (appendChildAt t p v) p = childCountAt t p + 1 ∧
    subtreeAt (appendChildAt t p v) (p ++ [childCountAt t p]) =
      some (TreeNode.node v []) ∧
    lastChildPos (appendChildAt t p v) p = some (p ++ [childCountAt t p]) ∧
    parentPos (p ++ [childCountAt t p]) = some p ∧
    prevSiblingPos (appendChildAt t p v) (p ++ [childCountAt t p]) =
      (if childCountAt t p = 0 then none else some (p ++ [childCountAt t p - 1])) ∧
    (∀ j q, j < childCountAt t p →
      subtreeAt (appendChildAt t p v) (p ++ j :: q) = subtreeAt t (p ++ j :: q)) ∧
    Tree.Size (appendChildAt t p v) = Tree.Size t + 1 ∧
    childCountAt (prependChildAt t p v) p = childCountAt t p + 1 ∧
    subtreeAt (prependChildAt t p v) (p ++ [0]) = some (TreeNode.node v []) ∧
    firstChildPos (prependChildAt t p v) p = some (p ++ [0]) ∧
    (∀ j q, j < childCountAt t p →
      subtreeAt (prependChildAt t p v) (p ++ (j + 1) :: q) = subtreeAt t (p ++ j :: q)) ∧
    Tree.Size (prependChildAt t p v) = Tree.Size t + 1 := by
  obtain ⟨s, hs⟩ := Option.isSome_iff_exists.mp hv
  have hn : childCountAt t p = s.children.length := childCountAt_eq hs
  have happ : subtreeAt (appendChildAt t p v) p =
      some (TreeNode.node s.GetData (s.children ++ [TreeNode.node v []])) := by
    unfold appendChildAt
    rw [subtreeAt_updateAt, hs]
    rfl
  have hpre : subtreeAt (prependChildAt t p v) p =
      some (TreeNode.node s.GetData (TreeNode.node v [] :: s.children)) := by
    unfold prependChildAt
    rw [subtreeAt_updateAt, hs]
    rfl
  have hcc : childCountAt (appendChildAt t p v) p = childCountAt t p + 1 := by
    rw [childCountAt_eq happ, hn]
    simp [TreeNode.children]
  have hcc2 : childCountAt (prependChildAt t p v) p = childCountAt t p + 1 := by
    rw [childCountAt_eq hpre, hn]
    simp [TreeNode.children]
  refine ⟨hcc, ?_, ?_, parentPos_concat p _, ?_, ?_, ?_, hcc2, ?_, ?_, ?_, ?_⟩
  · unfold appendChildAt
    rw [subtreeAt_updateAt_append, hs]
    show subtreeAt (TreeNode.node s.GetData (s.children ++ [TreeNode.node v []]))
      [childCountAt t p] = some (TreeNode.node v [])
    simp only [subtreeAt, TreeNode.children, hn]
    rw [List.getElem?_concat_length]
  · unfold lastChildPos
    rw [hcc, if_neg (by omega)]
    simp
  · unfold prevSiblingPos
    rw [List.getLast?_concat, List.dropLast_concat]
    cases hnn : childCountAt t p with
    | zero => simp
    | succ m => simp
  · intro j q hj
    unfold appendChildAt
    rw [subtreeAt_updateAt_append, subtreeAt_append, hs]
    show subtreeAt (TreeNode.node s.GetData (s.children ++ [TreeNode.node v []]))
      (j :: q) = subtreeAt s (j :: q)
    obtain ⟨a, cs⟩ := s
    simp only [subtreeAt, TreeNode.children]
    rw [List.getElem?_append_left (by rw [hn] at hj; simpa using hj)]
  · rw [Size_eq_size, Size_eq_size, size_appendChildAt v hv]
  · unfold prependChildAt
    rw [subtreeAt_updateAt_append, hs]
    show subtreeAt (TreeNode.node s.GetData (TreeNode.node v [] :: s.children)) [0] =
      some (TreeNode.node v [])
    simp [subtreeAt, TreeNode.children]
  · unfold firstChildPos
    rw [hcc2, if_neg (by omega)]
  · intro j q hj
    unfold prependChildAt
    rw [subtreeAt_updateAt_append, subtreeAt_append, hs]
    show subtreeAt (TreeNode.node s.GetData (TreeNode.node v [] :: s.children))
      ((j + 1) :: q) = subtreeAt s (j :: q)
    obtain ⟨a, cs⟩ := s
    simp [subtreeAt, TreeNode.children]
  · rw [Size_eq_size, Size_eq_size, size_prependChildAt v hv]

/-- Concrete instantiation of `C6_append_prepend_child` at node B of the
example tree. -/
theorem C6_append_prepend_child_witness :
    validPath exampleTree [0] ∧
      childCountAt (appendChildAt exampleTree [0] "Z") [0] =
        childCountAt exampleTree [0] + 1 :=
  ⟨by decide, (C6_append_prepend_child exampleTree [0] "Z" (by decide)).1⟩

/-- C7: sorting a node's children stably reorders only its immediate children
according to the comparator: the new child list is a permutation of the old
(each child carried with its whole subtree, so grandchildren are untouched),
it is sorted by the comparator (when the comparator is transitive and total),
any already-ordered selection keeps its relative order (stability), the
node's payload and the tree's size are unchanged; and on the unit tests'
example (children B, D, A, C, F, G, E, H under one root) the leaf traversal
after sorting yields A, B, C, D, E, F, G, H. -/
theorem C7_sort_children (t : TreeNode α) (p : List Nat)
    (cmp : TreeNode α → TreeNode α → Bool) (hv : validPath t p)
    (htrans : ∀ x y z, cmp x y = true → cmp y z = true → cmp x z = true)
    (htotal : ∀ x y, cmp x y = true ∨ cmp y x = true) :
    (childrenAt (sortChildrenAt t p cmp) p).Perm (childrenAt t p) ∧
    (childrenAt (sortChildrenAt t p cmp) p).Pairwise (fun x y => cmp x y = true) ∧
    (∀ c : List (TreeNode α), c.Pairwise (fun x y => cmp x y = true) →
      c.Sublist (childrenAt t p) →
      c.Sublist (childrenAt (sortChildrenAt t p cmp) p)) ∧
    (∀ c, c ∈ childrenAt (sortChildrenAt t p cmp) p → c ∈ childrenAt t p) ∧
    dataAt (sortChildrenAt t p cmp) p = dataAt t p ∧
    Tree.Size (sortChildrenAt t p cmp) = Tree.Size t ∧
    pathData (sortChildrenAt sortExampleTree [] nodeLe)
        (leafTraj (sortChildrenAt sortExampleTree [] nodeLe) [] 20) =
      ["A", "B", "C", "D", "E", "F", "G", "H"] := by
  obtain ⟨s, hs⟩ := Option.isSome_iff_exists.mp hv
  have hsort : subtreeAt (sortChildrenAt t p cmp) p =
      some (TreeNode.node s.GetData
        (s.children.insertionSort fun x y => cmp x y = true)) := by
    unfold sortChildrenAt
    rw [subtreeAt_updateAt, hs]
    rfl
  have hch : childrenAt (sortChildrenAt t p cmp) p =
      s.children.insertionSort fun x y => cmp x y = true := by
    unfold childrenAt
    rw [hsort]
    rfl
  have hch0 : childrenAt t p = s.children := by
    unfold childrenAt
    rw [hs]
  letI : IsTotal (TreeNode α) (fun x y => cmp x y = true) := ⟨htotal⟩
  letI : IsTrans (TreeNode α) (fun x y => cmp x y = true) := ⟨htrans⟩
  have hperm := List.perm_insertionSort (fun x y => cmp x y = true) s.children
  refine ⟨?_, ?_, ?_, ?_, ?_, ?_, by decide⟩
  · rw [hch, hch0]
    exact hperm
  · rw [hch]
    exact List.sorted_insertionSort _ s.children
  · intro c hcp hcs
    rw [hch]
    rw [hch0] at hcs
    exact List.sublist_insertionSort hcp hcs
  · intro c hc
    rw [hch] at hc
    rw [hch0]
    exact hperm.mem_iff.mp hc
  · unfold dataAt
    rw [hsort, hs]
    rfl
  · rw [Size_eq_size, Size_eq_size]
    obtain ⟨s2, hs2⟩ := Option.isSome_iff_exists.mp hv
    rw [hs] at hs2
    obtain rfl : s = s2 := by cases hs2; rfl
    have h := size_updateAt (fun u => TreeNode.node u.GetData
      (u.children.insertionSort fun x y => cmp x y = true)) p t s hs
    have hf : (TreeNode.node s.GetData
        (s.children.insertionSort fun x y => cmp x y = true)).size = s.size := by
      obtain ⟨a, cs⟩ := s
      show 1 + sizeList (cs.insertionSort fun x y => cmp x y = true) = 1 + sizeList cs
      rw [sizeList_eq_sum, sizeList_eq_sum]
      exact congrArg (1 + ·)
        (((List.perm_insertionSort _ cs).map TreeNode.size).sum_eq)
    rw [hf] at h
    unfold sortChildrenAt
    omega

/-- Concrete instantiation of `C7_sort_children` on a two-child tree with Nat
payloads and the natural order. -/
theorem C7_sort_children_witness :
    validPath (TreeNode.node 5 [TreeNode.node 2 [], TreeNode.node 1 []]) [] ∧
      (childrenAt (sortChildrenAt
          (TreeNode.node 5 [TreeNode.node 2 [], TreeNode.node 1 []]) []
          (fun x y => decide (x.GetData ≤ y.GetData))) []).Perm
        (childrenAt (TreeNode.node 5 [TreeNode.node 2 [], TreeNode.node 1 []]) []) :=
  ⟨by decide,
    (C7_sort_children (TreeNode.node 5 [TreeNode.node 2 [], TreeNode.node 1 []]) []
      (fun x y => decide (x.GetData ≤ y.GetData)) (by decide)
      (fun x y z hxy hyz => by
        simp only [decide_eq_true_eq] at hxy hyz ⊢
        omega)
      (fun x y => by
        simp only [decide_eq_true_eq]
        omega)).1⟩

/-- C8: every accessor returns a well-defined none sentinel, never an error,
exactly when the requested relation is absent: the root has no parent, a
childless node has no first/last child, the first sibling has no previous
sibling and the last sibling has no next sibling. -/
theorem C8_accessor_sentinels (t : TreeNode α) (p : List Nat) (hv : validPath t p) :
    (parentPos p = none ↔ p = []) ∧
    (firstChildPos t p = none ↔ childCountAt t p = 0) ∧
    (lastChildPos t p = none ↔ childCountAt t p = 0) ∧
    (prevSiblingPos t p = none ↔ (p = [] ∨ p.getLast? = some 0)) ∧
    (nextSiblingPos t p = none ↔
      (p = [] ∨ p.getLast? = some (childCountAt t p.dropLast - 1))) := by
  refine ⟨?_, ?_, ?_, ?_, ?_⟩
  · cases p <;> simp [parentPos]
  · by_cases h : childCountAt t p = 0 <;> simp [firstChildPos, h]
  · by_cases h : childCountAt t p = 0 <;> simp [lastChildPos, h]
  · cases hl : p.getLast? with
    | none => simp [prevSiblingPos, hl, List.getLast?_eq_none.mp hl]
    | some i =>
      have hne := ne_nil_of_getLast?_eq_some hl
      cases i with
      | zero => simp [prevSiblingPos, hl]
      | succ j => simp [prevSiblingPos, hl, hne]
  · cases hl : p.getLast? with
    | none => simp [nextSiblingPos, hl, List.getLast?_eq_none.mp hl]
    | some i =>
      have hne := ne_nil_of_getLast?_eq_some hl
      have hsplit : p.dropLast ++ [p.getLast hne] = p := List.dropLast_append_getLast hne
      have hi : p.getLast hne = i := by
        rw [List.getLast?_eq_getLast p hne] at hl
        exact Option.some_inj.mp hl
      rw [hi] at hsplit
      have hlt : i < childCountAt t p.dropLast := by
        rw [← hsplit] at hv
        unfold validPath at hv
        rw [subtreeAt_concat] at hv
        cases hd : subtreeAt t p.dropLast with
        | none => rw [hd] at hv; simp at hv
        | some s =>
          rw [hd] at hv
          rw [childCountAt_eq hd]
          by_contra hge
          push_neg at hge
          rw [show (some s).bind (fun s => s.children[i]?) = s.children[i]? from rfl,
            List.getElem?_eq_none hge] at hv
          simp at hv
      by_cases hc : i + 1 < childCountAt t p.dropLast
      · simp only [nextSiblingPos, hl, if_pos hc]
        constructor
        · intro h; cases h
        · rintro (h | h)
          · exact absurd h hne
          · have : i = childCountAt t p.dropLast - 1 := by
              simpa using h
            omega
      · simp only [nextSiblingPos, hl, if_neg hc]
        constructor
        · intro _
          right
          have : i = childCountAt t p.dropLast - 1 := by omega
          rw [this]
        · intro _; trivial

/-- Concrete instantiation of `C8_accessor_sentinels` at node D of the
example tree. -/
theorem C8_accessor_sentinels_witness :
    validPath exampleTree [0, 1] ∧
      (parentPos [0, 1] = none ↔ ([0, 1] : List Nat) = []) :=
  ⟨by decide, (C8_accessor_sentinels exampleTree [0, 1] (by decide)).1⟩

/-- C9: whole-tree destruction invokes the payload destructor of every node
reachable from the root exactly once — the destruction sequence has length
equal to the tree's size and enumerates each node of the tree exactly once —
and every append of a child accounts for exactly one more construction, so
over the tree's lifetime constructions and destructions balance. -/
theorem C9_destruction_accounting (t : TreeNode α) :
    (destroySeq t).length = Tree.Size t ∧
    (destroySeq t).Nodup ∧
    (∀ p, p ∈ destroySeq t ↔ validPath t p) ∧
    (∀ (p : List Nat) (v : α), validPath t p →
      Tree.Size (appendChildAt t p v) = Tree.Size t + 1) := by
  refine ⟨rfl, ?_, ?_, ?_⟩
  · exact ((perm_postEnumAux t []).nodup_iff).mpr (nodup_preEnumAux t [])
  · intro p
    show p ∈ postEnumAux t [] ↔ _
    rw [(perm_postEnumAux t []).mem_iff]
    exact mem_preorderPaths
  · intro p v hv
    rw [Size_eq_size, Size_eq_size, size_appendChildAt v hv]

/-- Concrete instantiation of `C9_destruction_accounting` on the example
tree. -/
theorem C9_destruction_accounting_witness :
    validPath exampleTree [0] ∧
      Tree.Size (appendChildAt exampleTree [0] "Z") = Tree.Size exampleTree + 1 :=
  ⟨by decide,
    (C9_destruction_accounting exampleTree).2.2.2 [0] "Z" (by decide)⟩

/-! ### Advance rules produce valid positions -/

theorem validPath_of_lt_childCount {t : TreeNode α} {p : List Nat} {i : Nat}
    (h : i < childCountAt t p) : validPath t (p ++ [i]) := by
  unfold childCountAt at h
  cases hd : subtreeAt t p with
  | none => rw [hd] at h; simp at h
  | some s =>
    rw [hd] at h
    exact validPath_concat hd h

theorem ascendNextAux_valid {t : TreeNode α} {b : List Nat} :
    ∀ fuel p q, ascendNextAux t b fuel p = some q → validPath t q := by
  intro fuel
  induction fuel with
  | zero =>
    intro p q h
    simp only [ascendNextAux] at h
    split at h
    · cases h
    · split at h
      · rename_i q0 hs
        cases h
        obtain ⟨i, hl, rfl, hlt⟩ := nextSiblingPos_eq_some hs
        exact validPath_of_lt_childCount hlt
      · cases h
  | succ n ih =>
    intro p q h
    simp only [ascendNextAux] at h
    split at h
    · cases h
    · split at h
      · rename_i q0 hs
        cases h
        obtain ⟨i, hl, rfl, hlt⟩ := nextSiblingPos_eq_some hs
        exact validPath_of_lt_childCount hlt
      · exact ih p.dropLast q h

theorem preOrderNext_valid {t : TreeNode α} {b p q : List Nat}
    (h : preOrderNext t b p = some q) : validPath t q := by
  unfold preOrderNext at h
  cases hf : firstChildPos t p with
  | some q0 =>
    rw [hf] at h
    cases h
    obtain ⟨rfl, hc⟩ := firstChildPos_eq_some hf
    exact validPath_of_lt_childCount (by omega)
  | none =>
    rw [hf] at h
    exact ascendNextAux_valid p.length p q h

theorem lmlAux_valid (s : TreeNode α) (p : List Nat) :
    ∀ t : TreeNode α, subtreeAt t p = some s → validPath t (lmlAux s p) := by
  induction s, p using lmlAux.induct with
  | case1 a p =>
    intro t ht
    show validPath t p
    unfold validPath
    rw [ht]
    rfl
  | case2 a c tail p ih =>
    intro t ht
    show validPath t (lmlAux c (p ++ [0]))
    refine ih t ?_
    rw [subtreeAt_concat, ht]
    simp [TreeNode.children]

theorem leftmostLeafPos_valid {t : TreeNode α} {p : List Nat}
    (hv : validPath t p) : validPath t (leftmostLeafPos t p) := by
  obtain ⟨s, hs⟩ := Option.isSome_iff_exists.mp hv
  unfold leftmostLeafPos
  rw [hs]
  exact lmlAux_valid s p t hs

theorem postOrderNext_valid {t : TreeNode α} {b p q : List Nat}
    (hv : validPath t p) (h : postOrderNext t b p = some q) : validPath t q := by
  unfold postOrderNext at h
  split at h
  · cases h
  · split at h
    · rename_i q0 hs
      cases h
      obtain ⟨i, hl, rfl, hlt⟩ := nextSiblingPos_eq_some hs
      exact leftmostLeafPos_valid (validPath_of_lt_childCount hlt)
    · split at h
      · cases h
      · cases h
        exact validPath_dropLast t hv

/-- Decomposition of a valid nonempty path into its parent and last index. -/
theorem last_step_data {t : TreeNode α} {p : List Nat}
    (hv : validPath t p) (hne : p ≠ []) :
    ∃ (i : Nat) (s : TreeNode α), p.getLast? = some i ∧
      subtreeAt t p.dropLast = some s ∧ i < s.children.length ∧
      p.dropLast ++ [i] = p := by
  obtain ⟨i, hl⟩ : ∃ i, p.getLast? = some i := by
    cases hgl : p.getLast? with
    | none => exact absurd (List.getLast?_eq_none.mp hgl) hne
    | some i => exact ⟨i, rfl⟩
  have hsplit : p.dropLast ++ [p.getLast hne] = p := List.dropLast_append_getLast hne
  have hi : p.getLast hne = i := by
    rw [List.getLast?_eq_getLast p hne] at hl
    exact Option.some_inj.mp hl
  rw [hi] at hsplit
  obtain ⟨s, hsd⟩ := Option.isSome_iff_exists.mp (validPath_dropLast t hv)
  refine ⟨i, s, hl, hsd, ?_, hsplit⟩
  rw [← hsplit] at hv
  unfold validPath at hv
  rw [subtreeAt_concat, hsd] at hv
  by_contra hge
  push_neg at hge
  rw [show ((some s).bind fun s => s.children[i]?) = s.children[i]? from rfl,
    List.getElem?_eq_none hge] at hv
  simp at hv

/-! ### Unfolding the remaining-positions bookkeeping -/

theorem upNexts_self (t : TreeNode α) (b : List Nat) : upNexts t b b = [] := by
  rw [upNexts.eq_def]
  simp

theorem upNexts_step {t : TreeNode α} {b p : List Nat} {i : Nat} {s : TreeNode α}
    (hne : p ≠ b) (hl : p.getLast? = some i) (hs : subtreeAt t p.dropLast = some s) :
    upNexts t b p =
      preEnumChildren (s.children.drop (i + 1)) p.dropLast (i + 1) ++
        upNexts t b p.dropLast := by
  rw [upNexts.eq_def, if_neg hne]
  split
  · rename_i h
    rw [hl] at h
    cases h
  · rename_i j h
    rw [hl] at h
    obtain rfl : i = j := Option.some_inj.mp h
    rw [hs]

theorem upNextsPost_self (t : TreeNode α) (b : List Nat) : upNextsPost t b b = [] := by
  rw [upNextsPost.eq_def]
  simp

theorem upNextsPost_step {t : TreeNode α} {b p : List Nat} {i : Nat} {s : TreeNode α}
    (hne : p ≠ b) (hl : p.getLast? = some i) (hs : subtreeAt t p.dropLast = some s) :
    upNextsPost t b p =
      postEnumChildren (s.children.drop (i + 1)) p.dropLast (i + 1) ++
        (p.dropLast :: upNextsPost t b p.dropLast) := by
  rw [upNextsPost.eq_def, if_neg hne]
  split
  · rename_i h
    rw [hl] at h
    cases h
  · rename_i j h
    rw [hl] at h
    obtain rfl : i = j := Option.some_inj.mp h
    rw [hs]

theorem preEnumChildren_drop {cs : List (TreeNode α)} {k : Nat}
    (hk : k < cs.length) (p : List Nat) :
    preEnumChildren (cs.drop k) p k =
      preEnumAux cs[k] (p ++ [k]) ++ preEnumChildren (cs.drop (k + 1)) p (k + 1) := by
  rw [List.drop_eq_getElem_cons hk]
  rfl

theorem postEnumChildren_drop {cs : List (TreeNode α)} {k : Nat}
    (hk : k < cs.length) (p : List Nat) :
    postEnumChildren (cs.drop k) p k =
      postEnumAux cs[k] (p ++ [k]) ++ postEnumChildren (cs.drop (k + 1)) p (k + 1) := by
  rw [List.drop_eq_getElem_cons hk]
  rfl

/-! ### The pre-order iterator enumerates exactly the remaining positions -/

theorem upNexts_eq_ascend (t : TreeNode α) (b : List Nat) :
    ∀ (n : Nat) (p : List Nat), p.length ≤ n → validPath t p → inSubtreeOf b p →
      upNexts t b p = (ascendNext t b p).elim [] (afterPre t b) := by
  intro n
  induction n with
  | zero =>
    intro p hlen hv hb
    have hp : p = [] := List.length_eq_zero.mp (Nat.le_zero.mp hlen)
    subst hp
    have hbnil : b = [] :=
      List.length_eq_zero.mp (Nat.le_zero.mp (by simpa using hb.length_le))
    subst hbnil
    rw [upNexts_self, ascendNext_unfold]
    simp
  | succ n ih =>
    intro p hlen hv hb
    by_cases hpb : p = b
    · subst hpb
      rw [upNexts_self, ascendNext_unfold]
      simp
    · have hne : p ≠ [] := inSubtreeOf_ne_nil hb hpb
      obtain ⟨i, s, hl, hsd, hi, hsplit⟩ := last_step_data hv hne
      have hstep := upNexts_step hpb hl hsd
      have hbd : inSubtreeOf b p.dropLast := hb.dropLast hpb
      have hcc : childCountAt t p.dropLast = s.children.length := childCountAt_eq hsd
      rw [ascendNext_unfold, if_neg hpb]
      by_cases hc : i + 1 < childCountAt t p.dropLast
      · have hsib : nextSiblingPos t p = some (p.dropLast ++ [i + 1]) := by
          unfold nextSiblingPos
          rw [hl]
          show (if i + 1 < childCountAt t p.dropLast
            then some (p.dropLast ++ [i + 1]) else none) = _
          rw [if_pos hc]
        rw [hsib]
        show upNexts t b p = afterPre t b (p.dropLast ++ [i + 1])
        have hi1 : i + 1 < s.children.length := by omega
        have hq_sub : subtreeAt t (p.dropLast ++ [i + 1]) = some (s.children[i + 1]) := by
          rw [subtreeAt_concat, hsd]
          show s.children[i + 1]? = _
          rw [List.getElem?_eq_getElem hi1]
        have hqne : p.dropLast ++ [i + 1] ≠ b := by
          intro hqb
          have h1 := hbd.length_le
          have h2 : p.dropLast.length + 1 = b.length := by
            rw [← hqb]
            simp
          omega
        have hstep2 := upNexts_step hqne (List.getLast?_concat _)
          (by rw [List.dropLast_concat]; exact hsd)
        rw [List.dropLast_concat] at hstep2
        unfold afterPre
        rw [hq_sub, hstep, hstep2, preEnumChildren_drop hi1]
        simp [List.append_assoc]
      · have hsib : nextSiblingPos t p = none := by
          unfold nextSiblingPos
          rw [hl]
          show (if i + 1 < childCountAt t p.dropLast
            then some (p.dropLast ++ [i + 1]) else none) = _
          rw [if_neg hc]
        rw [hsib, if_neg hne]
        have hdrop : s.children.drop (i + 1) = [] :=
          List.drop_eq_nil_of_le (by omega)
        rw [hstep, hdrop]
        rw [show preEnumChildren ([] : List (TreeNode α)) p.dropLast (i + 1) = []
          from rfl, List.nil_append]
        exact ih p.dropLast (by simp [List.length_dropLast]; omega)
          (validPath_dropLast t hv) hbd

theorem afterPre_step {t : TreeNode α} {b p : List Nat} {s : TreeNode α}
    (hs : subtreeAt t p = some s) (hb : inSubtreeOf b p) :
    afterPre t b p = p :: (preOrderNext t b p).elim [] (afterPre t b) := by
  have hv : validPath t p := by unfold validPath; rw [hs]; rfl
  obtain ⟨a, cs⟩ := s
  cases cs with
  | nil =>
    have hcc : childCountAt t p = 0 := by rw [childCountAt_eq hs]; rfl
    have hfc : firstChildPos t p = none := by unfold firstChildPos; rw [if_pos hcc]
    unfold preOrderNext
    rw [hfc]
    unfold afterPre
    rw [hs]
    show [p] ++ upNexts t b p = p :: (ascendNext t b p).elim [] (afterPre t b)
    rw [upNexts_eq_ascend t b p.length p (le_refl _) hv hb]
    rfl
  | cons c rest =>
    have hcc : childCountAt t p = (c :: rest).length := by rw [childCountAt_eq hs]; rfl
    have hfc : firstChildPos t p = some (p ++ [0]) := by
      unfold firstChildPos
      rw [hcc]
      simp
    unfold preOrderNext
    rw [hfc]
    show afterPre t b p = p :: afterPre t b (p ++ [0])
    have hsub0 : subtreeAt t (p ++ [0]) = some c := by
      rw [subtreeAt_concat, hs]
      simp [TreeNode.children]
    have h0ne : p ++ [0] ≠ b := by
      intro h
      have h1 := hb.length_le
      have h2 : p.length + 1 = b.length := by
        rw [← h]
        simp
      omega
    have hstep := upNexts_step h0ne (List.getLast?_concat _)
      (by rw [List.dropLast_concat]; exact hs)
    rw [List.dropLast_concat] at hstep
    unfold afterPre
    rw [hs, hsub0]
    show preEnumAux (TreeNode.node a (c :: rest)) p ++ upNexts t b p =
      p :: (preEnumAux c (p ++ [0]) ++ upNexts t b (p ++ [0]))
    rw [hstep]
    rw [show preEnumAux (TreeNode.node a (c :: rest)) p =
      p :: (preEnumAux c (p ++ [0]) ++ preEnumChildren rest p 1) from rfl]
    rw [show (TreeNode.node a (c :: rest)).children.drop (0 + 1) = rest from rfl]
    simp [List.append_assoc]

theorem trajAux_none (f : List Nat → Option (List Nat)) :
    ∀ fuel, trajAux f fuel none = [] := by
  intro fuel
  cases fuel <;> rfl

theorem trajAux_afterPre (t : TreeNode α) (b : List Nat) :
    ∀ (fuel : Nat) (p : List Nat), validPath t p → inSubtreeOf b p →
      (afterPre t b p).length ≤ fuel →
      trajAux (preOrderNext t b) fuel (some p) = afterPre t b p := by
  intro fuel
  induction fuel with
  | zero =>
    intro p hv hb hlen
    obtain ⟨s, hs⟩ := Option.isSome_iff_exists.mp hv
    rw [afterPre_step hs hb] at hlen
    simp at hlen
  | succ n ih =>
    intro p hv hb hlen
    obtain ⟨s, hs⟩ := Option.isSome_iff_exists.mp hv
    have hstep := afterPre_step hs hb
    rw [hstep]
    show p :: trajAux (preOrderNext t b) n (preOrderNext t b p) = _
    cases hnext : preOrderNext t b p with
    | none =>
      rw [trajAux_none]
      rfl
    | some q =>
      have hvq := preOrderNext_valid hnext
      have hbq := preOrderNext_inSubtree hb hnext
      have hlen2 : (afterPre t b q).length ≤ n := by
        rw [hstep, hnext] at hlen
        simpa using hlen
      rw [ih q hvq hbq hlen2]
      rfl

theorem preOrderTraj_eq_enum (t : TreeNode α) (b : List Nat) {s : TreeNode α}
    (hs : subtreeAt t b = some s) {fuel : Nat} (hfuel : s.size ≤ fuel) :
    preOrderTraj t b fuel = preEnumAux s b := by
  have hv : validPath t b := by unfold validPath; rw [hs]; rfl
  have hafter : afterPre t b b = preEnumAux s b := by
    unfold afterPre
    rw [hs, upNexts_self]
    simp
  unfold preOrderTraj
  rw [trajAux_afterPre t b fuel b hv (inSubtreeOf_refl b)
    (by rw [hafter, length_preEnumAux]; exact hfuel)]
  exact hafter

/-! ### The post-order iterator enumerates exactly the remaining positions -/

theorem afterPost_lml (t : TreeNode α) (b : List Nat) :
    ∀ (s : TreeNode α) (q : List Nat), subtreeAt t q = some s → inSubtreeOf b q →
      afterPost t b (lmlAux s q) = postEnumAux s q ++ upNextsPost t b q := by
  intro s q
  induction s, q using lmlAux.induct with
  | case1 a q =>
    intro hs hb
    show afterPost t b q = postEnumAux (TreeNode.node a []) q ++ upNextsPost t b q
    rw [show postEnumAux (TreeNode.node a []) q = [q] from rfl]
    rfl
  | case2 a c tail q ih =>
    intro hs hb
    show afterPost t b (lmlAux c (q ++ [0])) = _
    have hsub0 : subtreeAt t (q ++ [0]) = some c := by
      rw [subtreeAt_concat, hs]
      simp [TreeNode.children]
    have hb0 : inSubtreeOf b (q ++ [0]) := inSubtreeOf_append hb _
    rw [ih hsub0 hb0]
    have h0ne : q ++ [0] ≠ b := by
      intro h
      have h1 := hb.length_le
      have h2 : q.length + 1 = b.length := by
        rw [← h]
        simp
      omega
    have hstep := upNextsPost_step h0ne (List.getLast?_concat _)
      (by rw [List.dropLast_concat]; exact hs)
    rw [List.dropLast_concat] at hstep
    rw [hstep]
    rw [show (TreeNode.node a (c :: tail)).children.drop (0 + 1) = tail from rfl]
    rw [show postEnumAux (TreeNode.node a (c :: tail)) q =
      (postEnumAux c (q ++ [0]) ++ postEnumChildren tail q 1) ++ [q] from rfl]
    simp [List.append_assoc]

theorem upNextsPost_eq_next {t : TreeNode α} {b p : List Nat}
    (hv : validPath t p) (hb : inSubtreeOf b p) :
    upNextsPost t b p = (postOrderNext t b p).elim [] (afterPost t b) := by
  by_cases hpb : p = b
  · subst hpb
    rw [upNextsPost_self]
    unfold postOrderNext
    simp
  · have hne : p ≠ [] := inSubtreeOf_ne_nil hb hpb
    obtain ⟨i, s, hl, hsd, hi, hsplit⟩ := last_step_data hv hne
    have hbd : inSubtreeOf b p.dropLast := hb.dropLast hpb
    have hcc : childCountAt t p.dropLast = s.children.length := childCountAt_eq hsd
    have hstep := upNextsPost_step hpb hl hsd
    unfold postOrderNext
    rw [if_neg hpb]
    by_cases hc : i + 1 < childCountAt t p.dropLast
    · have hsib : nextSiblingPos t p = some (p.dropLast ++ [i + 1]) := by
        unfold nextSiblingPos
        rw [hl]
        show (if i + 1 < childCountAt t p.dropLast
          then some (p.dropLast ++ [i + 1]) else none) = _
        rw [if_pos hc]
      rw [hsib]
      show upNextsPost t b p = afterPost t b (leftmostLeafPos t (p.dropLast ++ [i + 1]))
      have hi1 : i + 1 < s.children.length := by omega
      have hq_sub : subtreeAt t (p.dropLast ++ [i + 1]) = some (s.children[i + 1]) := by
        rw [subtreeAt_concat, hsd]
        show s.children[i + 1]? = _
        rw [List.getElem?_eq_getElem hi1]
      rw [show leftmostLeafPos t (p.dropLast ++ [i + 1]) =
        lmlAux (s.children[i + 1]) (p.dropLast ++ [i + 1]) from by
          unfold leftmostLeafPos
          rw [hq_sub]]
      have hbq : inSubtreeOf b (p.dropLast ++ [i + 1]) := inSubtreeOf_append hbd _
      rw [afterPost_lml t b _ _ hq_sub hbq]
      have hqne : p.dropLast ++ [i + 1] ≠ b := by
        intro hqb
        have h1 := hbd.length_le
        have h2 : p.dropLast.length + 1 = b.length := by
          rw [← hqb]
          simp
        omega
      have hstep2 := upNextsPost_step hqne (List.getLast?_concat _)
        (by rw [List.dropLast_concat]; exact hsd)
      rw [List.dropLast_concat] at hstep2
      rw [hstep2, hstep, postEnumChildren_drop hi1]
      simp [List.append_assoc]
    · have hsib : nextSiblingPos t p = none := by
        unfold nextSiblingPos
        rw [hl]
        show (if i + 1 < childCountAt t p.dropLast
          then some (p.dropLast ++ [i + 1]) else none) = _
        rw [if_neg hc]
      rw [hsib, if_neg hne]
      show upNextsPost t b p = afterPost t b p.dropLast
      have hdrop : s.children.drop (i + 1) = [] :=
        List.drop_eq_nil_of_le (by omega)
      rw [hstep, hdrop]
      rw [show postEnumChildren ([] : List (TreeNode α)) p.dropLast (i + 1) = []
        from rfl, List.nil_append]
      rfl

theorem afterPost_step {t : TreeNode α} {b p : List Nat}
    (hv : validPath t p) (hb : inSubtreeOf b p) :
    afterPost t b p = p :: (postOrderNext t b p).elim [] (afterPost t b) := by
  show p :: upNextsPost t b p = _
  rw [upNextsPost_eq_next hv hb]

theorem trajAux_afterPost (t : TreeNode α) (b : List Nat) :
    ∀ (fuel : Nat) (p : List Nat), validPath t p → inSubtreeOf b p →
      (afterPost t b p).length ≤ fuel →
      trajAux (postOrderNext t b) fuel (some p) = afterPost t b p := by
  intro fuel
  induction fuel with
  | zero =>
    intro p hv hb hlen
    rw [afterPost_step hv hb] at hlen
    simp at hlen
  | succ n ih =>
    intro p hv hb hlen
    have hstep := afterPost_step hv hb
    rw [hstep]
    show p :: trajAux (postOrderNext t b) n (postOrderNext t b p) = _
    cases hnext : postOrderNext t b p with
    | none =>
      rw [trajAux_none]
      rfl
    | some q =>
      have hvq := postOrderNext_valid hv hnext
      have hbq := postOrderNext_inSubtree hb hnext
      have hlen2 : (afterPost t b q).length ≤ n := by
        rw [hstep, hnext] at hlen
        simpa using hlen
      rw [ih q hvq hbq hlen2]
      rfl

theorem postOrderTraj_eq_enum (t : TreeNode α) (b : List Nat) {s : TreeNode α}
    (hs : subtreeAt t b = some s) {fuel : Nat} (hfuel : s.size ≤ fuel) :
    postOrderTraj t b fuel = postEnumAux s b := by
  have hlml : leftmostLeafPos t b = lmlAux s b := by
    unfold leftmostLeafPos
    rw [hs]
  have hafter : afterPost t b (lmlAux s b) = postEnumAux s b := by
    rw [afterPost_lml t b s b hs (inSubtreeOf_refl b), upNextsPost_self]
    simp
  unfold postOrderTraj
  rw [hlml]
  rw [trajAux_afterPost t b fuel (lmlAux s b) (lmlAux_valid s b t hs)
    (lmlAux_inSubtree s b b (inSubtreeOf_refl b))
    (by rw [hafter, length_postEnumAux]; exact hfuel)]
  exact hafter

/-- C3: for every tree, its size equals 1 plus the root's immediate child
count plus the sum of `CountAllDescendants` over the root's children, and
both the full pre-order and the full post-order iterator traversals visit
exactly `Size` positions, each node of the tree exactly once, with no
duplicates and no omissions. -/
theorem C3_size_and_traversal_consistency (t : TreeNode α) :
    Tree.Size t = 1 + t.children.length +
      (t.children.map TreeNode.CountAllDescendants).sum ∧
    (preOrderTraj t [] (Tree.Size t)).length = Tree.Size t ∧
    (postOrderTraj t [] (Tree.Size t)).length = Tree.Size t ∧
    (preOrderTraj t [] (Tree.Size t)).Nodup ∧
    (postOrderTraj t [] (Tree.Size t)).Nodup ∧
    (∀ p, p ∈ preOrderTraj t [] (Tree.Size t) ↔ validPath t p) ∧
    (∀ p, p ∈ postOrderTraj t [] (Tree.Size t) ↔ validPath t p) := by
  have hfuel : t.size ≤ Tree.Size t := by rw [Size_eq_size]
  have hpre : preOrderTraj t [] (Tree.Size t) = preEnumAux t [] :=
    preOrderTraj_eq_enum t [] (subtreeAt_nil t) hfuel
  have hpost : postOrderTraj t [] (Tree.Size t) = postEnumAux t [] :=
    postOrderTraj_eq_enum t [] (subtreeAt_nil t) hfuel
  have hperm := perm_postEnumAux t []
  refine ⟨?_, ?_, ?_, ?_, ?_, ?_, ?_⟩
  · rw [Size_eq_size]
    have hsum : ∀ ds : List (TreeNode α),
        sizeList ds = ds.length + (ds.map TreeNode.CountAllDescendants).sum := by
      intro ds
      induction ds with
      | nil => rfl
      | cons d ds ih =>
        show TreeNode.size d + sizeList ds = _
        rw [size_eq_one_add_countDesc d, ih]
        simp
        omega
    obtain ⟨a, cs⟩ := t
    show (TreeNode.node a cs).size = 1 + cs.length + _
    rw [show (TreeNode.node a cs).size = 1 + sizeList cs from rfl, hsum cs]
    show 1 + (cs.length + (cs.map TreeNode.CountAllDescendants).sum) =
      1 + cs.length + ((TreeNode.node a cs).children.map TreeNode.CountAllDescendants).sum
    rw [show (TreeNode.node a cs).children = cs from rfl]
    omega
  · rw [hpre, length_preEnumAux, Size_eq_size]
  · rw [hpost, length_postEnumAux, Size_eq_size]
  · rw [hpre]
    exact nodup_preEnumAux t []
  · rw [hpost]
    exact hperm.nodup_iff.mpr (nodup_preEnumAux t [])
  · intro p
    rw [hpre]
    exact mem_preorderPaths
  · intro p
    rw [hpost, hperm.mem_iff]
    exact mem_preorderPaths
